import Mathlib

/-!
Verification of the Zabbix function-expression parsing core described by the
repository specification.  The repository sources expose only the
declarations of the parsing engine (src/include/zbxstr.h); the bodies of
`zbx_function_param_parse`, `zbx_function_param_quote`,
`zbx_function_param_unquote_dyn`, `zbx_function_validate_parameters`,
`zbx_function_find`, `zbx_function_get_param_dyn`, `zbx_strlen_utf8_nchars`
and `zbx_utf8_char_len` are not part of the sources, so the engine is
modelled here from the specification text and the claims are settled
against that model.  Strings are embedded as `List Char`, byte buffers as
`List Nat`.
-/

set_option maxHeartbeats 1000000

namespace ZbxSpec

/-- Modelled from the spec: error kinds of section 7 (the bodies that raise
them, such as `zbx_function_validate_parameters`, are missing from src). -/
inductive PErr where
  | UnterminatedQuote
  | IndexOutOfRange
  | MalformedFunctionCall
  | InvalidEncoding
deriving DecidableEq

/-- Modelled from the spec: the scan state of the parameter splitter in
section 4.3 — nesting depth, the inside-quotes flag and the pending-escape
flag (the body of `zbx_function_param_parse` is missing from src). -/
structure ScanSt where
  depth : Nat
  inQ : Bool
  esc : Bool
deriving DecidableEq

/-- Modelled from the spec: the initial scan state (depth 0, outside
quotes, no pending escape). -/
def initSt : ScanSt := ⟨0, false, false⟩

/-- Modelled from the spec: one splitter step of section 4.3 — inside
quotes a backslash escapes the next character and an unescaped quote
toggles the quoted flag; outside quotes a quote opens a quoted span, while
an opening parenthesis or bracket increments the nesting depth and a
closing one decrements it (the body of `zbx_function_param_parse` is
missing from src). -/
def pstep (st : ScanSt) (c : Char) : ScanSt :=
  if st.esc then { st with esc := false }
  else if st.inQ then
    if c = '\\' then { st with esc := true }
    else if c = '"' then { st with inQ := false }
    else st
  else if c = '"' then { st with inQ := true }
  else if c = '(' ∨ c = '[' then { st with depth := st.depth + 1 }
  else if c = ')' ∨ c = ']' then { st with depth := st.depth - 1 }
  else st

/-- Modelled from the spec: the parameter splitter of section 4.3 over a
parameter-list text — a comma met at depth 0 outside quotes is a parameter
boundary; the resulting raw spans appear in left-to-right order and an
empty span yields an empty parameter (the body of
`zbx_function_param_parse` is missing from src). -/
def splitParams (s : List Char) (st : ScanSt) : List (List Char) :=
  match s with
  | [] => [[]]
  | c :: rest =>
    if c = ',' ∧ st.depth = 0 ∧ st.inQ = false then
      [] :: splitParams rest st
    else
      match splitParams rest (pstep st c) with
      | [] => [[c]]
      | t :: ts => (c :: t) :: ts

/-- Modelled from the spec: the positions of the top-level commas of a
parameter-list text, i.e. the commas met at depth 0 outside quotes; these
are exactly the parameter boundaries of section 4.3. -/
def topCommaIdx (s : List Char) (st : ScanSt) : List Nat :=
  match s with
  | [] => []
  | c :: rest =>
    if c = ',' ∧ st.depth = 0 ∧ st.inQ = false then
      0 :: (topCommaIdx rest st).map (· + 1)
    else
      (topCommaIdx rest (pstep st c)).map (· + 1)

/-- Cutting a text at a given ascending list of delimiter positions,
dropping the one-character delimiter at each cut. -/
def cutAtIdx (s : List Char) (ps : List Nat) : List (List Char) :=
  match ps with
  | [] => [s]
  | p :: rest => s.take p :: cutAtIdx (s.drop (p + 1)) (rest.map (· - (p + 1)))
termination_by ps.length
decreasing_by simp

/-- Modelled from the spec: the distance scanned by one parameter-parse
step until the separating top-level comma, or to the end of the input when
the current parameter is the last one (the body of
`zbx_function_param_parse` is missing from src). -/
def sepPos (s : List Char) (st : ScanSt) : Nat :=
  match s with
  | [] => 0
  | c :: rest =>
    if c = ',' ∧ st.depth = 0 ∧ st.inQ = false then 0
    else 1 + sepPos rest (pstep st c)

/-- Modelled from the spec: one step of the parameter splitter behind the
declaration `zbx_function_param_parse` (src/include/zbxstr.h line 137, body
missing from src); it reports the parameter start offset, the raw span
length and the separator offset.  The spec splitter takes the raw span
verbatim from the start of the remaining text to the separating top-level
comma, so the start offset is 0 and the span runs to the separator. -/
def zbx_function_param_parse (expr : List Char) : Nat × Nat × Nat :=
  (0, sepPos expr initSt, sepPos expr initSt)

end ZbxSpec

namespace ZbxSpec

/-! ### Parameter codec (spec section 4.2) -/

/-- Modelled from the spec: the whitespace characters of the repository
(`ZBX_WHITESPACE` in src/include/zbxstr.h). -/
def isWS (c : Char) : Bool :=
  c = ' ' || c = '\t' || c = '\r' || c = '\n'

/-- Modelled from the spec: the characters that force quoting of a
parameter value — comma, parentheses and the double quote (section 4.2). -/
def isSpecialChar (c : Char) : Bool :=
  c = ',' || c = '(' || c = ')' || c = '"'

/-- Whether a value contains a character that forces quoting. -/
def containsSpecial : List Char → Bool
  | [] => false
  | c :: rest => isSpecialChar c || containsSpecial rest

/-- Whether a value starts with a whitespace character. -/
def headIsWS : List Char → Bool
  | [] => false
  | c :: _ => isWS c

/-- Whether a value ends with a whitespace character. -/
def lastIsWS : List Char → Bool
  | [] => false
  | [c] => isWS c
  | _ :: c :: rest => lastIsWS (c :: rest)

/-- Modelled from the spec: `needsQuoting(value, forced)` of section 4.2 —
true if forced, or the value is empty, starts or ends with whitespace, or
contains a comma, parenthesis or double quote (the body of
`zbx_function_param_quote` is missing from src). -/
def needsQuoting (value : List Char) (forced : Bool) : Bool :=
  forced || value.isEmpty || headIsWS value || lastIsWS value || containsSpecial value

/-- Modelled from the spec: the escaping applied when quoting — every
backslash and every double quote gets a preceding backslash. -/
def quoteEscape : List Char → List Char
  | [] => []
  | c :: rest =>
    if c = '"' ∨ c = '\\' then '\\' :: c :: quoteEscape rest
    else c :: quoteEscape rest

/-- Modelled from the spec: `quote(value, forced)` of section 4.2 behind
the declaration `zbx_function_param_quote` (src/include/zbxstr.h line 139,
body missing from src) — the value unchanged when quoting is not needed,
otherwise the escaped value wrapped in double quotes. -/
def quote (value : List Char) (forced : Bool) : List Char :=
  if needsQuoting value forced then '"' :: (quoteEscape value ++ ['"']) else value

/-- Modelled from the spec: the scan of a quoted body — reverses the
escaping and succeeds exactly when the body is closed by an unescaped
trailing double quote. -/
def unquoteBody : List Char → Option (List Char)
  | [] => none
  | c :: rest =>
    if c = '"' then (if rest = [] then some [] else none)
    else if c = '\\' then
      match rest with
      | [] => none
      | d :: rest2 =>
        if d = '"' ∨ d = '\\' then (unquoteBody rest2).map (fun v => d :: v)
        else (unquoteBody rest2).map (fun v => '\\' :: d :: v)
    else (unquoteBody rest).map (fun v => c :: v)

/-- Modelled from the spec: `unquote(rawSpan)` of section 4.2 behind the
declaration `zbx_function_param_unquote_dyn` (src/include/zbxstr.h line
138, body missing from src) — strips the surrounding quotes and reverses
the escaping when the span starts and ends with an unescaped double quote,
returns the span verbatim otherwise, and fails with `UnterminatedQuote`
when a leading quote has no matching unescaped trailing quote. -/
def unquote (raw : List Char) : Except PErr (List Char × Bool) :=
  match raw with
  | [] => .ok ([], false)
  | c :: rest =>
    if c = '"' then
      match unquoteBody rest with
      | some v => .ok (v, true)
      | none => .error .UnterminatedQuote
    else .ok (c :: rest, false)

/-- Whether a span is a well-formed quoted body: it contains no unescaped
double quote and no trailing backslash that would escape the closing
quote, so that a closing quote appended after it is the matching unescaped
trailing quote of the enclosing span. -/
def properBody : List Char → Bool
  | [] => true
  | c :: rest =>
    if c = '"' then false
    else if c = '\\' then
      match rest with
      | [] => false
      | _ :: rest2 => properBody rest2
    else properBody rest

/-- The reversal of the escaping on a quoted body: a backslash before a
double quote or a backslash is removed, every other character is kept
verbatim (section 4.2). -/
def unescape : List Char → List Char
  | [] => []
  | c :: rest =>
    if c = '\\' then
      match rest with
      | [] => ['\\']
      | d :: rest2 =>
        if d = '"' ∨ d = '\\' then d :: unescape rest2
        else '\\' :: d :: unescape rest2
    else c :: unescape rest

/-! ### Parameter access (spec section 4.5, `getParam`) -/

/-- Modelled from the spec: `getParam(paramListText, index)` of section 4.5
behind the declaration `zbx_function_get_param_dyn` (src/include/zbxstr.h
line 143, body missing from src) — steps through the parameter list one
separator at a time and returns the 1-based index-th parameter's unescaped
value, failing with `IndexOutOfRange` when the index exceeds the parameter
count. -/
def zbx_function_get_param_dyn : List Char → Nat → Except PErr (List Char)
  | _, 0 => .error .IndexOutOfRange
  | s, 1 => (unquote (s.take (sepPos s initSt))).map (fun p => p.1)
  | s, n + 2 =>
    if sepPos s initSt < s.length then
      zbx_function_get_param_dyn (s.drop (sepPos s initSt + 1)) (n + 1)
    else .error .IndexOutOfRange

/-! ### Function locator (spec section 4.4) -/

/-- Modelled from the spec: whether a character may start an identifier
token, `[A-Za-z_]` (section 4.4). -/
def isIdentStart (c : Char) : Bool :=
  decide ((('a' ≤ c ∧ c ≤ 'z') ∨ ('A' ≤ c ∧ c ≤ 'Z') ∨ c = '_'))

/-- Modelled from the spec: whether a character may continue an identifier
token, `[A-Za-z0-9_]` (section 4.4). -/
def isIdentChar (c : Char) : Bool :=
  isIdentStart c || decide ('0' ≤ c ∧ c ≤ '9')

/-- Modelled from the spec: one scan step of the function locator — it
skips bracket-delimited and quote-delimited regions exactly as the
parameter splitter does, so only brackets contribute to the depth while
scanning for a candidate call (section 4.4). -/
def skipStep (st : ScanSt) (c : Char) : ScanSt :=
  if st.esc then { st with esc := false }
  else if st.inQ then
    if c = '\\' then { st with esc := true }
    else if c = '"' then { st with inQ := false }
    else st
  else if c = '"' then { st with inQ := true }
  else if c = '[' then { st with depth := st.depth + 1 }
  else if c = ']' then { st with depth := st.depth - 1 }
  else st

/-- Modelled from the spec: tracking of the current identifier run while
the locator scans — the start position of a pending identifier token, kept
only while the scan state is clear and the characters continue the
token. -/
def updateRun (st : ScanSt) (run : Option Nat) (i : Nat) (c : Char) : Option Nat :=
  if st = initSt then
    match run with
    | some j => if isIdentChar c then some j else none
    | none => if isIdentStart c then some i else none
  else none

/-- Modelled from the spec: locating the closing parenthesis that matches
an already-open one, using the same nesting and quoting rules as the
parameter splitter (section 4.4). -/
def matchClose (s : List Char) (st : ScanSt) : Option Nat :=
  match s with
  | [] => none
  | c :: rest =>
    if c = ')' ∧ st.depth = 0 ∧ st.inQ = false then some 0
    else (matchClose rest (pstep st c)).map (· + 1)

/-- Modelled from the spec: the scan loop of the function locator — an
identifier token immediately followed by an opening parenthesis at clear
scan state is a candidate function call; its matching closing parenthesis
is then located, and a missing match is a `MalformedFunctionCall` error at
the position of the opening parenthesis (section 4.4). -/
def findAux : List Char → Nat → ScanSt → Option Nat →
    Except (Nat × PErr) (Option (Nat × Nat × Nat))
  | [], _, _, _ => .ok none
  | c :: rest, i, st, run =>
    match run with
    | some j =>
      if st = initSt ∧ c = '(' then
        match matchClose rest initSt with
        | some off => .ok (some (j, i, i + 1 + off))
        | none => .error (i, .MalformedFunctionCall)
      else findAux rest (i + 1) (skipStep st c) (updateRun st run i c)
    | none => findAux rest (i + 1) (skipStep st c) (updateRun st run i c)

/-- Modelled from the spec: `find(expr, fromPos)` of section 4.4 behind the
declaration `zbx_function_find` (src/include/zbxstr.h lines 141-142, body
missing from src), here started at position 0 — returns the function name
position, the opening-parenthesis position and the matching
closing-parenthesis position of the next function call, `none` when no
call is present, or a positioned error. -/
def zbx_function_find (expr : List Char) : Except (Nat × PErr) (Option (Nat × Nat × Nat)) :=
  findAux expr 0 initSt none

/-! ### Expression validator (spec section 4.5) -/

/-- Modelled from the spec: checking every raw parameter span of a list
through the codec, reporting the first unquoting failure. -/
def checkSpansList : List (List Char) → Option PErr
  | [] => none
  | sp :: rest =>
    match unquote sp with
    | .error e => some e
    | .ok _ => checkSpansList rest

/-- Modelled from the spec: validation of the parameter text between the
parentheses of one located call — every extracted raw span is passed
through the codec (section 4.3). -/
def checkParams (params : List Char) : Option PErr :=
  checkSpansList (splitParams params initSt)

/-- Modelled from the spec: the validator loop — locate the next function
call, validate its parameter spans, and continue after its closing
parenthesis; the fuel argument only bounds the recursion and never runs
out when it starts at the input length plus one. -/
def goValidate : Nat → List Char → Nat → Except (Nat × PErr) Unit
  | 0, _, _ => .ok ()
  | fuel + 1, s, ofs =>
    match zbx_function_find s with
    | .error (p, k) => .error (ofs + p, k)
    | .ok none => .ok ()
    | .ok (some (_, pl, pr)) =>
      match checkParams ((s.drop (pl + 1)).take (pr - pl - 1)) with
      | some k => .error (ofs + pl + 1, k)
      | none => goValidate fuel (s.drop (pr + 1)) (ofs + pr + 1)

/-- Modelled from the spec: the scan mode of the structural validator —
outside quotes, inside a quoted span opened at a remembered position, or
right after an escaping backslash inside such a span. -/
inductive Mode where
  | plain : Mode
  | quoted : Nat → Mode
  | escd : Nat → Mode

/-- Modelled from the spec: the structural scan of section 4.5 behind the
declaration `zbx_function_validate_parameters` (src/include/zbxstr.h line
140, body missing from src) — it tracks the positions of the open
parentheses and the quoting state, and reports an unmatched opening
parenthesis, a stray closing parenthesis or an unterminated quote at the
offending byte position, since the spec demands that an unterminated
quote or unmatched parenthesis is always rejected. -/
def balScan : List Char → Nat → Mode → List Nat → Except (Nat × PErr) Unit
  | [], _, .plain, [] => .ok ()
  | [], _, .plain, p :: stack =>
    .error ((p :: stack).getLastD p, .MalformedFunctionCall)
  | [], _, .quoted qpos, _ => .error (qpos, .UnterminatedQuote)
  | [], _, .escd qpos, _ => .error (qpos, .UnterminatedQuote)
  | c :: rest, i, .plain, stack =>
    if c = '"' then balScan rest (i + 1) (.quoted i) stack
    else if c = '(' then balScan rest (i + 1) .plain (i :: stack)
    else if c = ')' then
      match stack with
      | [] => .error (i, .MalformedFunctionCall)
      | _ :: stack2 => balScan rest (i + 1) .plain stack2
    else balScan rest (i + 1) .plain stack
  | c :: rest, i, .quoted qpos, stack =>
    if c = '\\' then balScan rest (i + 1) (.escd qpos) stack
    else if c = '"' then balScan rest (i + 1) .plain stack
    else balScan rest (i + 1) (.quoted qpos) stack
  | _ :: rest, i, .escd qpos, stack => balScan rest (i + 1) (.quoted qpos) stack

/-- Whether a text is structurally neutral when scanned at a given
parenthesis depth and quoting state: every quote it opens is closed, every
parenthesis it opens is matched, and it never closes a parenthesis it did
not open; at the end the depth is back to 0 outside quotes. -/
def neutralScan : List Char → Nat → Bool → Bool → Bool
  | [], d, inQ, esc => decide (d = 0) && !inQ && !esc
  | c :: rest, d, inQ, esc =>
    if esc then neutralScan rest d true false
    else if inQ then
      if c = '\\' then neutralScan rest d true true
      else if c = '"' then neutralScan rest d false false
      else neutralScan rest d true false
    else if c = '"' then neutralScan rest d true false
    else if c = '(' then neutralScan rest (d + 1) false false
    else if c = ')' then
      match d with
      | 0 => false
      | d2 + 1 => neutralScan rest d2 false false
    else neutralScan rest d false false

/-- Whether a text is structurally neutral from the clear state: balanced
parentheses, complete quoted spans, no stray closing parenthesis. -/
def scanOk (s : List Char) : Bool :=
  neutralScan s 0 false false

/-- Whether a text scanned inside a quoted span never closes that span:
it contains no unescaped double quote, so the span runs off the end of the
input. -/
def neverCloses : List Char → Bool → Bool
  | [], _ => true
  | c :: rest, esc =>
    if esc then neverCloses rest false
    else if c = '\\' then neverCloses rest true
    else if c = '"' then false
    else neverCloses rest false

/-- The scan mode denoted by an in-quote flag and an escape flag, with the
position of the opening quote. -/
def modeOf (inQ esc : Bool) (qpos : Nat) : Mode :=
  if esc then .escd qpos else if inQ then .quoted qpos else .plain

/-- Modelled from the spec: `validate(expr)` of section 4.5 behind the
declaration `zbx_function_validate_parameters` (src/include/zbxstr.h line
140, body missing from src) — checks the structural balance of
parentheses and quoted spans, then runs the locator and the splitter
across the entire input, returning the full consumed length on success or
the byte offset and kind of the first structural violation. -/
def validate (expr : List Char) : Except (Nat × PErr) Nat :=
  match balScan expr 0 .plain [] with
  | .error e => .error e
  | .ok _ =>
    match goValidate (expr.length + 1) expr 0 with
    | .ok _ => .ok expr.length
    | .error e => .error e

/-! ### UTF-8 helpers (spec section 4.1) -/

/-- Modelled from the spec: `charLen` of section 4.1 behind the declaration
`zbx_utf8_char_len` (src/include/zbxstr.h line 110, body missing from src)
— the byte length 1..4 of the UTF-8 code point introduced by a lead byte,
or `none` for an invalid lead byte. -/
def charLen (b : Nat) : Option Nat :=
  if b < 128 then some 1
  else if 192 ≤ b ∧ b < 224 then some 2
  else if 224 ≤ b ∧ b < 240 then some 3
  else if 240 ≤ b ∧ b < 248 then some 4
  else none

/-- Modelled from the spec: the byte lengths of the consecutive complete
UTF-8 code points at the start of a buffer, stopping at an invalid lead
byte or a truncated final sequence. -/
def utf8Lens (s : List Nat) : List Nat :=
  match s with
  | [] => []
  | b :: rest =>
    match charLen b with
    | none => []
    | some l => if l - 1 ≤ rest.length then l :: utf8Lens (rest.drop (l - 1)) else []
termination_by s.length
decreasing_by simp; omega

/-- Modelled from the spec: `boundedSubstring(buf, maxChars)` of section
4.1 behind the declaration `zbx_strlen_utf8_nchars` (src/include/zbxstr.h
line 113, body missing from src) — the byte length of the longest prefix
covering at most `maxChars` complete code points, rounding down so that no
multi-byte sequence is cut. -/
def boundedSubstring (s : List Nat) (maxChars : Nat) : Nat :=
  match s, maxChars with
  | [], _ => 0
  | _ :: _, 0 => 0
  | b :: rest, m + 1 =>
    match charLen b with
    | none => 0
    | some l =>
      if l - 1 ≤ rest.length then l + boundedSubstring (rest.drop (l - 1)) m else 0

/-! ### Lemmas about the parameter codec -/

theorem unquoteBody_quoteHead (rest : List Char) :
    unquoteBody ('"' :: rest) = (if rest = [] then some [] else none) := by
  rw [unquoteBody.eq_def]; simp

theorem unquoteBody_backslash (d : Char) (rest2 : List Char) :
    unquoteBody ('\\' :: d :: rest2) =
      (if d = '"' ∨ d = '\\' then (unquoteBody rest2).map (fun v => d :: v)
       else (unquoteBody rest2).map (fun v => '\\' :: d :: v)) := by
  rw [unquoteBody.eq_def]; simp

theorem unquoteBody_cons_other (c : Char) (rest : List Char)
    (h1 : c ≠ '"') (h2 : c ≠ '\\') :
    unquoteBody (c :: rest) = (unquoteBody rest).map (fun v => c :: v) := by
  rw [unquoteBody.eq_def]
  simp only [if_neg h1, if_neg h2]

theorem unescape_backslash (d : Char) (rest2 : List Char) :
    unescape ('\\' :: d :: rest2) =
      (if d = '"' ∨ d = '\\' then d :: unescape rest2
       else '\\' :: d :: unescape rest2) := by
  rw [unescape.eq_def]
  simp

theorem unescape_cons_other (c : Char) (rest : List Char) (h : c ≠ '\\') :
    unescape (c :: rest) = c :: unescape rest := by
  rw [unescape.eq_def]
  simp [h]

theorem properBody_backslash (d : Char) (rest2 : List Char) :
    properBody ('\\' :: d :: rest2) = properBody rest2 := by
  rw [properBody.eq_def]
  simp

theorem properBody_cons_other (c : Char) (rest : List Char)
    (h1 : c ≠ '"') (h2 : c ≠ '\\') :
    properBody (c :: rest) = properBody rest := by
  rw [properBody.eq_def]
  simp [h1, h2]

theorem unquoteBody_proper (mid : List Char) :
    properBody mid = true → unquoteBody (mid ++ ['"']) = some (unescape mid) := by
  induction mid using properBody.induct with
  | case1 => intro h; rfl
  | case2 rest =>
    intro h
    rw [properBody.eq_def] at h
    simp at h
  | case3 hne =>
    intro h
    rw [properBody.eq_def] at h
    simp at h
  | case4 x rest2 hne ih =>
    intro h
    rw [properBody_backslash] at h
    rw [List.cons_append, List.cons_append, unquoteBody_backslash, ih h,
      unescape_backslash]
    by_cases hx : x = '"' ∨ x = '\\'
    · rw [if_pos hx, if_pos hx]
      rfl
    · rw [if_neg hx, if_neg hx]
      rfl
  | case5 c rest h1 h2 ih =>
    intro h
    rw [properBody_cons_other c rest h1 h2] at h
    rw [List.cons_append, unquoteBody_cons_other c _ h1 h2, ih h,
      unescape_cons_other c rest h2]
    rfl

theorem unquoteBody_roundTrip (v : List Char) :
    unquoteBody (quoteEscape v ++ ['"']) = some v := by
  induction v with
  | nil => rfl
  | cons c rest ih =>
    by_cases hc : c = '"' ∨ c = '\\'
    · simp only [quoteEscape, if_pos hc, List.cons_append]
      rw [unquoteBody_backslash, if_pos hc, ih]
      rfl
    · push_neg at hc
      simp only [quoteEscape, if_neg (show ¬(c = '"' ∨ c = '\\') by tauto), List.cons_append]
      rw [unquoteBody_cons_other c _ hc.1 hc.2, ih]
      rfl

theorem headIsWS_iff (s : List Char) :
    headIsWS s = true ↔ ∃ c, s.head? = some c ∧ isWS c = true := by
  cases s with
  | nil => simp [headIsWS]
  | cons c rest => simp [headIsWS]

theorem lastIsWS_iff (s : List Char) :
    lastIsWS s = true ↔ ∃ c, s.getLast? = some c ∧ isWS c = true := by
  induction s with
  | nil => simp [lastIsWS]
  | cons a rest ih =>
    cases rest with
    | nil => simp [lastIsWS]
    | cons b l =>
      rw [lastIsWS, ih, List.getLast?_cons_cons]

theorem containsSpecial_iff (s : List Char) :
    containsSpecial s = true ↔ ∃ c ∈ s, isSpecialChar c = true := by
  induction s with
  | nil => simp [containsSpecial]
  | cons c rest ih => simp [containsSpecial, ih]

theorem unquoteBody_some_decomp (rest : List Char) :
    ∀ v, unquoteBody rest = some v →
      ∃ mid, rest = mid ++ ['"'] ∧ properBody mid = true ∧ v = unescape mid := by
  induction rest using unquoteBody.induct with
  | case1 => intro v h; exact Option.noConfusion h
  | case2 =>
    intro v h
    exact ⟨[], rfl, rfl, (Option.some.inj h).symm⟩
  | case3 tl hnil =>
    intro v h
    rw [unquoteBody_quoteHead, if_neg hnil] at h
    exact Option.noConfusion h
  | case4 hne => intro v h; exact Option.noConfusion h
  | case5 c tl hd hne ih =>
    intro v h
    rw [unquoteBody_backslash, if_pos hd] at h
    obtain ⟨w, hw, hwv⟩ := Option.map_eq_some'.mp h
    obtain ⟨mid, hmid, hp, hwe⟩ := ih w hw
    refine ⟨'\\' :: c :: mid, by simp [hmid], ?_, ?_⟩
    · rw [properBody_backslash]
      exact hp
    · rw [unescape_backslash, if_pos hd, ← hwv, hwe]
  | case6 c tl hd hne ih =>
    intro v h
    rw [unquoteBody_backslash, if_neg hd] at h
    obtain ⟨w, hw, hwv⟩ := Option.map_eq_some'.mp h
    obtain ⟨mid, hmid, hp, hwe⟩ := ih w hw
    refine ⟨'\\' :: c :: mid, by simp [hmid], ?_, ?_⟩
    · rw [properBody_backslash]
      exact hp
    · rw [unescape_backslash, if_neg hd, ← hwv, hwe]
  | case7 c tl h1 h2 ih =>
    intro v h
    rw [unquoteBody_cons_other c tl h1 h2] at h
    obtain ⟨w, hw, hwv⟩ := Option.map_eq_some'.mp h
    obtain ⟨mid, hmid, hp, hwe⟩ := ih w hw
    refine ⟨c :: mid, by simp [hmid], ?_, ?_⟩
    · rw [properBody_cons_other c mid h1 h2]
      exact hp
    · rw [unescape_cons_other c mid h2, ← hwv, hwe]

/-- Claim C1: round trip of the parameter codec — for every value, with
forced quoting off, if the value needs quoting then unquoting its quoted
form returns the value unchanged with the quoted flag set, and if it does
not need quoting then quoting returns the value unchanged. -/
theorem param_codec_round_trip (value : List Char) :
    (needsQuoting value false = true →
      unquote (quote value false) = .ok (value, true)) ∧
    (needsQuoting value false = false → quote value false = value) := by
  constructor
  · intro h
    rw [quote]
    simp only [h, if_true]
    simp [unquote, unquoteBody_roundTrip]
  · intro h
    rw [quote]
    simp [h]

/-- Claim C1 witness: the round trip evaluated at the concrete values
`a,b` (which needs quoting) and `5m` (which does not). -/
theorem param_codec_round_trip_witness :
    unquote (quote ['a', ',', 'b'] false) = .ok ((['a', ',', 'b'] : List Char), true) ∧
    quote ['5', 'm'] false = ['5', 'm'] :=
  ⟨(param_codec_round_trip ['a', ',', 'b']).1 rfl,
   (param_codec_round_trip ['5', 'm']).2 rfl⟩

/-- Claim C2: `needsQuoting(value, forced)` is true exactly when forced is
set, or the value is empty, or it starts or ends with a whitespace
character, or it contains a comma, a parenthesis or a double quote; in
particular `a,b` needs quoting and `5m` does not. -/
theorem needsQuoting_spec :
    (∀ (value : List Char) (forced : Bool),
      needsQuoting value forced = true ↔
        (forced = true ∨ value = [] ∨
         (∃ c, value.head? = some c ∧ isWS c = true) ∨
         (∃ c, value.getLast? = some c ∧ isWS c = true) ∨
         (∃ c ∈ value, isSpecialChar c = true))) ∧
    needsQuoting ['a', ',', 'b'] false = true ∧
    needsQuoting ['5', 'm'] false = false := by
  refine ⟨?_, rfl, rfl⟩
  intro value forced
  rw [needsQuoting]
  simp [Bool.or_eq_true, headIsWS_iff, lastIsWS_iff, containsSpecial_iff,
    List.isEmpty_iff, or_assoc]

/-- Claim C3: `unquote` strips the surrounding quotes and reverses the
escaping, with the quoted flag set, exactly on the spans that consist of a
leading double quote, a well-formed escaped body and the matching
unescaped trailing double quote; every other span comes back verbatim with
the flag clear; and it fails, always with `UnterminatedQuote`, exactly
when a leading quote has no matching unescaped trailing quote. -/
theorem unquote_spec :
    (∀ raw : List Char,
      (∀ mid, raw = '"' :: (mid ++ ['"']) → properBody mid = true →
        unquote raw = .ok (unescape mid, true)) ∧
      (∀ v, unquote raw = .ok (v, true) →
        ∃ mid, raw = '"' :: (mid ++ ['"']) ∧ properBody mid = true ∧
          v = unescape mid) ∧
      (raw.head? ≠ some '"' → unquote raw = .ok (raw, false)) ∧
      (∀ v q, unquote raw = .ok (v, q) → (q = true ↔ raw.head? = some '"')) ∧
      (unquote raw = .error .UnterminatedQuote ↔
        (raw.head? = some '"' ∧
          ¬ ∃ mid, raw = '"' :: (mid ++ ['"']) ∧ properBody mid = true)) ∧
      (∀ e, unquote raw = .error e → e = .UnterminatedQuote)) ∧
    unquote ['"', 'a', '\\', '"', 'b', '"'] = .ok (['a', '"', 'b'], true) ∧
    unquote ['"', 'a'] = .error .UnterminatedQuote := by
  refine ⟨?_, rfl, rfl⟩
  intro raw
  cases raw with
  | nil =>
    refine ⟨?_, ?_, fun _ => rfl, ?_, ?_, ?_⟩
    · intro mid hmid hp
      exact absurd hmid (by simp)
    · intro v h
      obtain ⟨-, hq⟩ := Prod.mk.injEq .. ▸ Except.ok.inj h
      exact absurd hq (by simp)
    · intro v q h
      obtain ⟨-, hq⟩ := Prod.mk.injEq .. ▸ Except.ok.inj h
      simp [← hq]
    · constructor
      · intro h
        exact Except.noConfusion h
      · rintro ⟨hh, -⟩
        exact absurd hh (by simp)
    · intro e h
      exact Except.noConfusion h
  | cons c rest =>
    by_cases hc : c = '"'
    · subst hc
      cases hub : unquoteBody rest with
      | some v0 =>
        have hun : unquote ('"' :: rest) = .ok (v0, true) := by
          rw [unquote, if_pos rfl, hub]
        obtain ⟨mid, hmid, hp, hv⟩ := unquoteBody_some_decomp rest v0 hub
        refine ⟨?_, ?_, ?_, ?_, ?_, ?_⟩
        · intro mid2 hmid2 hp2
          have hrest : rest = mid2 ++ ['"'] := by
            simpa using hmid2
          have hsome := unquoteBody_proper mid2 hp2
          rw [← hrest, hub] at hsome
          rw [hun, Option.some.inj hsome]
        · intro v h
          rw [hun] at h
          obtain ⟨hv0, -⟩ := Prod.mk.injEq .. ▸ Except.ok.inj h
          exact ⟨mid, by rw [hmid], hp, by rw [← hv0, hv]⟩
        · intro hhead
          exact absurd rfl hhead
        · intro v q h
          rw [hun] at h
          obtain ⟨-, hq⟩ := Prod.mk.injEq .. ▸ Except.ok.inj h
          simp [← hq]
        · constructor
          · intro herr
            rw [hun] at herr
            exact Except.noConfusion herr
          · rintro ⟨-, hno⟩
            exact absurd ⟨mid, by rw [hmid], hp⟩ hno
        · intro e h
          rw [hun] at h
          exact Except.noConfusion h
      | none =>
        have hun : unquote ('"' :: rest) = .error .UnterminatedQuote := by
          rw [unquote, if_pos rfl, hub]
        refine ⟨?_, ?_, ?_, ?_, ?_, ?_⟩
        · intro mid2 hmid2 hp2
          have hrest : rest = mid2 ++ ['"'] := by
            simpa using hmid2
          have hsome := unquoteBody_proper mid2 hp2
          rw [← hrest, hub] at hsome
          exact Option.noConfusion hsome
        · intro v h
          rw [hun] at h
          exact Except.noConfusion h
        · intro hhead
          exact absurd rfl hhead
        · intro v q h
          rw [hun] at h
          exact Except.noConfusion h
        · constructor
          · intro _
            refine ⟨rfl, ?_⟩
            rintro ⟨mid2, hmid2, hp2⟩
            have hrest : rest = mid2 ++ ['"'] := by
              simpa using hmid2
            have hsome := unquoteBody_proper mid2 hp2
            rw [← hrest, hub] at hsome
            exact Option.noConfusion hsome
          · intro _
            exact hun
        · intro e h
          rw [hun] at h
          exact (Except.error.inj h).symm
    · have hun : unquote (c :: rest) = .ok (c :: rest, false) := by
        rw [unquote, if_neg hc]
      refine ⟨?_, ?_, fun _ => hun, ?_, ?_, ?_⟩
      · intro mid hmid hp
        have hch : c = '"' := by
          have := congrArg List.head? hmid
          simpa using this
        exact absurd hch hc
      · intro v h
        rw [hun] at h
        obtain ⟨-, hq⟩ := Prod.mk.injEq .. ▸ Except.ok.inj h
        exact absurd hq.symm (by simp)
      · intro v q h
        rw [hun] at h
        obtain ⟨-, hq⟩ := Prod.mk.injEq .. ▸ Except.ok.inj h
        simp [← hq, hc]
      · constructor
        · intro herr
          rw [hun] at herr
          exact Except.noConfusion herr
        · rintro ⟨hh, -⟩
          exact absurd (by simpa using hh) hc
      · intro e h
        rw [hun] at h
        exact Except.noConfusion h

/-- Claim C3 witness: the stripping arm of `unquote_spec` evaluated at the
concrete quoted span around `x`, and its verbatim arm at the unquoted span
`y`. -/
theorem unquote_spec_witness :
    unquote ['"', 'x', '"'] = .ok ((['x'] : List Char), true) ∧
    unquote ['y'] = .ok ((['y'] : List Char), false) :=
  ⟨(unquote_spec.1 ['"', 'x', '"']).1 ['x'] rfl rfl,
   (unquote_spec.1 ['y']).2.2.1 (by simp)⟩

/-! ### Lemmas about the parameter splitter -/

theorem splitParams_ne_nil (s : List Char) (st : ScanSt) : splitParams s st ≠ [] := by
  cases s with
  | nil => simp [splitParams]
  | cons c rest =>
    rw [splitParams]
    by_cases h : (c = ',' ∧ st.depth = 0 ∧ st.inQ = false)
    · simp [h]
    · rw [if_neg h]
      cases splitParams rest (pstep st c) <;> simp

theorem cutAtIdx_ne_nil (s : List Char) (ps : List Nat) : cutAtIdx s ps ≠ [] := by
  cases ps <;> simp [cutAtIdx]

theorem cutAtIdx_shift (ps : List Nat) (s : List Char) (c : Char) (t : List Char)
    (ts : List (List Char)) (h : cutAtIdx s ps = t :: ts) :
    cutAtIdx (c :: s) (ps.map (· + 1)) = (c :: t) :: ts := by
  cases ps with
  | nil =>
    rw [cutAtIdx] at h
    obtain ⟨ht, hts⟩ := List.cons.injEq .. ▸ h
    rw [List.map_nil, cutAtIdx, ht, ← hts]
  | cons p rest =>
    rw [cutAtIdx] at h
    obtain ⟨ht, hts⟩ := List.cons.injEq .. ▸ h
    rw [List.map_cons, cutAtIdx, List.take_succ_cons, List.drop_succ_cons, ht,
      List.map_map, ← hts]
    have harith : ∀ x : Nat, x + 1 - (p + 1 + 1) = x - (p + 1) := by omega
    have hmap : ((· - (p + 1 + 1)) ∘ (· + 1)) = (fun x : Nat => x - (p + 1)) := by
      funext x
      simp [Function.comp, harith x]
    rw [hmap]

theorem splitParams_eq_cut (s : List Char) (st : ScanSt) :
    splitParams s st = cutAtIdx s (topCommaIdx s st) := by
  induction s generalizing st with
  | nil => simp [splitParams, topCommaIdx, cutAtIdx]
  | cons c rest ih =>
    by_cases h : (c = ',' ∧ st.depth = 0 ∧ st.inQ = false)
    · rw [splitParams, if_pos h, topCommaIdx, if_pos h, cutAtIdx,
        List.take_zero, List.drop_succ_cons, List.drop_zero, List.map_map]
      have hfun : ((· - (0 + 1)) ∘ (· + 1)) = (id : Nat → Nat) := by
        funext x
        simp
      rw [hfun, List.map_id, ih]
    · obtain ⟨t, ts, hts⟩ : ∃ t ts, cutAtIdx rest (topCommaIdx rest (pstep st c)) = t :: ts := by
        cases hcut : cutAtIdx rest (topCommaIdx rest (pstep st c)) with
        | nil => exact absurd hcut (cutAtIdx_ne_nil _ _)
        | cons t ts => exact ⟨t, ts, rfl⟩
      rw [splitParams, if_neg h, topCommaIdx, if_neg h, ih, hts,
        cutAtIdx_shift _ _ _ _ _ hts]

theorem topCommaIdx_comma (s : List Char) (st : ScanSt) :
    ∀ i ∈ topCommaIdx s st, s[i]? = some ',' := by
  induction s generalizing st with
  | nil => simp [topCommaIdx]
  | cons c rest ih =>
    intro i hi
    rw [topCommaIdx] at hi
    by_cases h : (c = ',' ∧ st.depth = 0 ∧ st.inQ = false)
    · rw [if_pos h] at hi
      rcases List.mem_cons.mp hi with hi0 | hi1
      · subst hi0
        simp [h.1]
      · obtain ⟨j, hj, hij⟩ := List.mem_map.mp hi1
        subst hij
        simpa using ih st j hj
    · rw [if_neg h] at hi
      obtain ⟨j, hj, hij⟩ := List.mem_map.mp hi
      subst hij
      simpa using ih (pstep st c) j hj

/-- Claim C4: the splitter cuts exactly at the commas occurring at nesting
depth 0 outside quoted spans — its output equals the input cut at the
top-level comma positions (which are all commas), spans appear in
left-to-right order, and an empty span between two delimiters is kept as
an empty parameter. -/
theorem splitter_top_level_commas :
    (∀ s : List Char,
      splitParams s initSt = cutAtIdx s (topCommaIdx s initSt) ∧
      (∀ i ∈ topCommaIdx s initSt, s[i]? = some ',')) ∧
    splitParams [',', ','] initSt = [[], [], []] :=
  ⟨fun s => ⟨splitParams_eq_cut s initSt, topCommaIdx_comma s initSt⟩, rfl⟩

/-- Claim C4 witness: the comma-position arm evaluated on the concrete
one-comma text. -/
theorem splitter_top_level_commas_witness : ([','] : List Char)[0]? = some ',' :=
  (splitter_top_level_commas.1 [',']).2 0 (by decide)

/-! ### Lemmas about the single parameter-parse step -/

theorem sepPos_le (s : List Char) (st : ScanSt) : sepPos s st ≤ s.length := by
  induction s generalizing st with
  | nil => simp [sepPos]
  | cons c rest ih =>
    rw [sepPos]
    by_cases h : (c = ',' ∧ st.depth = 0 ∧ st.inQ = false)
    · simp [h]
    · rw [if_neg h]
      have := ih (pstep st c)
      simp only [List.length_cons]
      omega

/-- Claim C10: the offsets produced by a single parameter-parse step
satisfy `param_pos ≤ param_pos + length ≤ sep_pos ≤ input length`, so the
raw parameter span never extends past the reported separator position or
past the end of the input. -/
theorem param_parse_offsets (expr : List Char) :
    (zbx_function_param_parse expr).1 ≤
        (zbx_function_param_parse expr).1 + (zbx_function_param_parse expr).2.1 ∧
    (zbx_function_param_parse expr).1 + (zbx_function_param_parse expr).2.1 ≤
        (zbx_function_param_parse expr).2.2 ∧
    (zbx_function_param_parse expr).2.2 ≤ expr.length := by
  refine ⟨Nat.le_add_right _ _, ?_, ?_⟩
  · simp [zbx_function_param_parse]
  · simpa [zbx_function_param_parse] using sepPos_le expr initSt

theorem pstep_escInv (st : ScanSt) (c : Char) (h : st.esc = true → st.inQ = true) :
    (pstep st c).esc = true → (pstep st c).inQ = true := by
  rw [pstep]
  split_ifs <;> simp_all

theorem splitParams_no_comma (s : List Char) (st : ScanSt)
    (h : sepPos s st = s.length) : splitParams s st = [s] := by
  induction s generalizing st with
  | nil => rfl
  | cons c rest ih =>
    rw [sepPos] at h
    by_cases hc : (c = ',' ∧ st.depth = 0 ∧ st.inQ = false)
    · rw [if_pos hc] at h
      simp at h
    · rw [if_neg hc] at h
      simp only [List.length_cons] at h
      rw [splitParams, if_neg hc, ih (pstep st c) (by omega)]

theorem splitParams_step (s : List Char) (st : ScanSt)
    (hinv : st.esc = true → st.inQ = true) (h : sepPos s st < s.length) :
    splitParams s st =
      s.take (sepPos s st) :: splitParams (s.drop (sepPos s st + 1)) initSt := by
  induction s generalizing st with
  | nil => simp [sepPos] at h
  | cons c rest ih =>
    by_cases hc : (c = ',' ∧ st.depth = 0 ∧ st.inQ = false)
    · have hst : st = initSt := by
        obtain ⟨d, q, e⟩ := st
        obtain ⟨-, hd, hq⟩ := hc
        simp only at hd hq
        subst hd hq
        have he : e = false := by
          cases e
          · rfl
          · exact absurd (hinv rfl) (by simp)
        rw [he]
        rfl
      rw [splitParams, if_pos hc, sepPos, if_pos hc, List.take_zero,
        List.drop_succ_cons, List.drop_zero, hst]
    · have hsep : sepPos (c :: rest) st = 1 + sepPos rest (pstep st c) := by
        rw [sepPos, if_neg hc]
      rw [hsep] at h ⊢
      simp only [List.length_cons] at h
      have h2 : sepPos rest (pstep st c) < rest.length := by omega
      rw [splitParams, if_neg hc, ih (pstep st c) (pstep_escInv st c hinv) h2]
      have e1 : 1 + sepPos rest (pstep st c) = sepPos rest (pstep st c) + 1 := by omega
      rw [e1, List.take_succ_cons, List.drop_succ_cons]

/-! ### Lemmas about parameter extraction -/

theorem except_map_error_iff {α β ε : Type} (x : Except ε α) (f : α → β) (e : ε) :
    x.map f = .error e ↔ x = .error e := by
  cases x <;> simp [Except.map]

theorem unquote_error_kind (raw : List Char) (e : PErr)
    (h : unquote raw = .error e) : e = PErr.UnterminatedQuote := by
  cases raw with
  | nil => exact Except.noConfusion h
  | cons c rest =>
    by_cases hc : c = '"'
    · subst hc
      cases hub : unquoteBody rest with
      | some v =>
        rw [unquote, if_pos rfl, hub] at h
        exact Except.noConfusion h
      | none =>
        rw [unquote, if_pos rfl, hub] at h
        exact (Except.error.inj h).symm
    · rw [unquote, if_neg hc] at h
      exact Except.noConfusion h

theorem getParam_general (n : Nat) : ∀ s : List Char, 1 ≤ n →
    ((zbx_function_get_param_dyn s n = .error .IndexOutOfRange ↔
        (splitParams s initSt).length < n) ∧
     (n ≤ (splitParams s initSt).length →
        zbx_function_get_param_dyn s n =
          (unquote ((splitParams s initSt).getD (n - 1) [])).map (fun p => p.1))) := by
  induction n with
  | zero => intro s h; omega
  | succ m ih =>
    intro s hm
    cases m with
    | zero =>
      have hcount : 1 ≤ (splitParams s initSt).length := by
        cases hsp : splitParams s initSt with
        | nil => exact absurd hsp (splitParams_ne_nil s initSt)
        | cons a l => simp
      have heq : zbx_function_get_param_dyn s 1 =
          (unquote (s.take (sepPos s initSt))).map (fun p => p.1) := rfl
      have hspan : s.take (sepPos s initSt) = (splitParams s initSt).getD 0 [] := by
        rcases Nat.lt_or_ge (sepPos s initSt) s.length with hlt | hge
        · rw [splitParams_step s initSt (by simp [initSt]) hlt]
          rfl
        · have hfull : sepPos s initSt = s.length :=
            Nat.le_antisymm (sepPos_le s initSt) hge
          rw [splitParams_no_comma s initSt hfull, hfull, List.take_length]
          rfl
      constructor
      · constructor
        · intro herr
          rw [heq] at herr
          have := unquote_error_kind _ _ ((except_map_error_iff _ _ _).mp herr)
          exact absurd this (by simp)
        · intro hlt
          omega
      · intro hle
        rw [heq, hspan]
    | succ k =>
      have heq : zbx_function_get_param_dyn s (k + 2) =
          (if sepPos s initSt < s.length then
            zbx_function_get_param_dyn (s.drop (sepPos s initSt + 1)) (k + 1)
          else .error .IndexOutOfRange) := rfl
      rcases Nat.lt_or_ge (sepPos s initSt) s.length with hlt | hge
      · have hsplit := splitParams_step s initSt (by simp [initSt]) hlt
        obtain ⟨hiff, hpos⟩ := ih (s.drop (sepPos s initSt + 1)) (by omega)
        rw [heq, if_pos hlt]
        constructor
        · rw [hiff, hsplit]
          simp only [List.length_cons]
          omega
        · intro hle
          rw [hsplit] at hle
          simp only [List.length_cons] at hle
          rw [hpos (by omega), hsplit]
          rfl
      · have hfull : sepPos s initSt = s.length :=
          Nat.le_antisymm (sepPos_le s initSt) hge
        rw [heq, if_neg (by omega)]
        rw [splitParams_no_comma s initSt hfull]
        constructor
        · simp
        · intro hle
          simp at hle

/-- Claim C5: `getParam` on the parameter text `"a,b",c` returns `a,b` for
index 1 and `c` for index 2 and fails with `IndexOutOfRange` for index 3;
in general, for an index of at least 1, it fails with `IndexOutOfRange`
exactly when the index exceeds the parameter count, and otherwise returns
the unescaped value of the 1-based index-th parameter span. -/
theorem getParam_spec :
    (zbx_function_get_param_dyn ['"', 'a', ',', 'b', '"', ',', 'c'] 1 =
        .ok ['a', ',', 'b'] ∧
     zbx_function_get_param_dyn ['"', 'a', ',', 'b', '"', ',', 'c'] 2 = .ok ['c'] ∧
     zbx_function_get_param_dyn ['"', 'a', ',', 'b', '"', ',', 'c'] 3 =
        .error .IndexOutOfRange) ∧
    (∀ (params : List Char) (n : Nat), 1 ≤ n →
      ((zbx_function_get_param_dyn params n = .error .IndexOutOfRange ↔
          (splitParams params initSt).length < n) ∧
       (n ≤ (splitParams params initSt).length →
          zbx_function_get_param_dyn params n =
            (unquote ((splitParams params initSt).getD (n - 1) [])).map
              (fun p => p.1)))) :=
  ⟨⟨rfl, rfl, rfl⟩, fun params n hn => getParam_general n params hn⟩

/-- Claim C5 witness: the general arm of `getParam_spec` evaluated at the
concrete text `a,b` and index 3, which exceeds the two-parameter count. -/
theorem getParam_spec_witness :
    zbx_function_get_param_dyn ['a', ',', 'b'] 3 = .error .IndexOutOfRange ∧
    (splitParams ['a', ',', 'b'] initSt).length < 3 :=
  ⟨((getParam_spec.2 ['a', ',', 'b'] 3 (by decide)).1).mpr (by decide), by decide⟩

/-! ### Lemmas about the function locator -/

/-- The running example expression `avg(/host/key,5m)` of the spec. -/
def exprAvgKey : List Char :=
  ['a', 'v', 'g', '(', '/', 'h', 'o', 's', 't', '/', 'k', 'e', 'y', ',', '5', 'm', ')']

theorem findAux_cons_none (c : Char) (rest : List Char) (i : Nat) (st : ScanSt) :
    findAux (c :: rest) i st none =
      findAux rest (i + 1) (skipStep st c) (updateRun st none i c) := rfl

theorem findAux_cons_some (c : Char) (rest : List Char) (i j : Nat) (st : ScanSt) :
    findAux (c :: rest) i st (some j) =
      (if st = initSt ∧ c = '(' then
        match matchClose rest initSt with
        | some off => .ok (some (j, i, i + 1 + off))
        | none => .error (i, .MalformedFunctionCall)
      else findAux rest (i + 1) (skipStep st c) (updateRun st (some j) i c)) := rfl

theorem findAux_open_paren (s : List Char) :
    ∀ (i : Nat) (st : ScanSt) (run : Option Nat) (fp pl pr : Nat),
      findAux s i st run = .ok (some (fp, pl, pr)) →
      ∃ k, pl = i + k ∧ List.foldl skipStep st (s.take k) = initSt ∧
        s[k]? = some '(' := by
  induction s with
  | nil =>
    intro i st run fp pl pr h
    exact Option.noConfusion (Except.ok.inj h)
  | cons c rest ih =>
    intro i st run fp pl pr h
    cases run with
    | none =>
      rw [findAux_cons_none] at h
      obtain ⟨k, hk, hfold, hget⟩ := ih (i + 1) (skipStep st c) (updateRun st none i c)
        fp pl pr h
      refine ⟨k + 1, by omega, ?_, by simpa using hget⟩
      rw [List.take_succ_cons, List.foldl_cons]
      exact hfold
    | some j =>
      rw [findAux_cons_some] at h
      by_cases hcand : (st = initSt ∧ c = '(')
      · rw [if_pos hcand] at h
        cases hmc : matchClose rest initSt with
        | some off =>
          simp only [hmc] at h
          obtain ⟨-, hpl, -⟩ :=
            Prod.mk.injEq .. ▸ (Option.some.inj (Except.ok.inj h))
          refine ⟨0, by omega, ?_, ?_⟩
          · rw [List.take_zero, List.foldl_nil, hcand.1]
          · simp [hcand.2]
        | none =>
          rw [hmc] at h
          exact Except.noConfusion h
      · rw [if_neg hcand] at h
        obtain ⟨k, hk, hfold, hget⟩ := ih (i + 1) (skipStep st c)
          (updateRun st (some j) i c) fp pl pr h
        refine ⟨k + 1, by omega, ?_, by simpa using hget⟩
        rw [List.take_succ_cons, List.foldl_cons]
        exact hfold

/-- Claim C6: `find` on `avg(/host/key,5m)` returns the call whose name
span is `avg` and whose parameter span splits into `/host/key` and `5m`;
and in general the opening parenthesis of any returned call sits at clear
skip state, so a `(` inside a bracketed item-key region or inside a quoted
span never opens a function call. -/
theorem find_function_call :
    (zbx_function_find exprAvgKey = .ok (some (0, 3, 16)) ∧
     exprAvgKey.take 3 = ['a', 'v', 'g'] ∧
     (splitParams ((exprAvgKey.drop 4).take 12) initSt).map
        (fun sp => (unquote sp).map (fun p => p.1)) =
       [.ok ['/', 'h', 'o', 's', 't', '/', 'k', 'e', 'y'], .ok ['5', 'm']]) ∧
    (∀ (s : List Char) (fp pl pr : Nat),
      zbx_function_find s = .ok (some (fp, pl, pr)) →
      List.foldl skipStep initSt (s.take pl) = initSt ∧ s[pl]? = some '(') := by
  refine ⟨⟨rfl, rfl, rfl⟩, ?_⟩
  intro s fp pl pr h
  obtain ⟨k, hk, hfold, hget⟩ := findAux_open_paren s 0 initSt none fp pl pr h
  have hk0 : pl = k := by omega
  subst hk0
  exact ⟨hfold, hget⟩

/-- Claim C6 witness: the clear-state arm evaluated at the located call of
the running example. -/
theorem find_function_call_witness :
    List.foldl skipStep initSt (exprAvgKey.take 3) = initSt ∧
    exprAvgKey[3]? = some '(' :=
  find_function_call.2 exprAvgKey 0 3 16 rfl

/-! ### Lemmas about the expression validator -/

theorem ident_not_special (c : Char) (h : isIdentChar c = true) :
    c ≠ '"' ∧ c ≠ '[' ∧ c ≠ ']' ∧ c ≠ '(' ∧ c ≠ '\\' := by
  refine ⟨?_, ?_, ?_, ?_, ?_⟩ <;> (rintro rfl; revert h; decide)

theorem skipStep_clear_ident (c : Char) (h : isIdentChar c = true) :
    skipStep initSt c = initSt := by
  obtain ⟨h1, h2, h3, -, -⟩ := ident_not_special c h
  rw [skipStep]
  simp [initSt, h1, h2, h3]

theorem updateRun_ident_cont (j i : Nat) (c : Char) (h : isIdentChar c = true) :
    updateRun initSt (some j) i c = some j := by
  rw [updateRun]
  simp [h]

theorem updateRun_ident_start (i : Nat) (c : Char) (h : isIdentStart c = true) :
    updateRun initSt none i c = some i := by
  rw [updateRun]
  simp [h]

theorem findAux_ident_run (name : List Char) (h : ∀ c ∈ name, isIdentChar c = true) :
    ∀ (s : List Char) (i j : Nat),
      findAux (name ++ s) i initSt (some j) =
        findAux s (i + name.length) initSt (some j) := by
  induction name with
  | nil => simp
  | cons c0 tl ih =>
    intro s i j
    have hc0 : isIdentChar c0 = true := h c0 (by simp)
    obtain ⟨-, -, -, hpar, -⟩ := ident_not_special c0 hc0
    rw [List.cons_append, findAux]
    simp only []
    rw [if_neg (by tauto)]
    rw [skipStep_clear_ident c0 hc0, updateRun_ident_cont j i c0 hc0]
    rw [ih (fun c hc => h c (by simp [hc])) s (i + 1) j]
    have harith : i + 1 + tl.length = i + (c0 :: tl).length := by
      simp only [List.length_cons]
      omega
    rw [harith]

theorem find_unmatched_paren (c0 : Char) (name2 tail : List Char)
    (h0 : isIdentStart c0 = true) (h2 : ∀ c ∈ name2, isIdentChar c = true)
    (hmc : matchClose tail initSt = none) :
    zbx_function_find (c0 :: (name2 ++ '(' :: tail)) =
      .error (name2.length + 1, .MalformedFunctionCall) := by
  have hc0 : isIdentChar c0 = true := by simp [isIdentChar, h0]
  rw [zbx_function_find, findAux_cons_none]
  rw [skipStep_clear_ident c0 hc0, updateRun_ident_start 0 c0 h0]
  rw [findAux_ident_run name2 h2 ('(' :: tail) 1 0]
  rw [findAux_cons_some]
  rw [if_pos ⟨rfl, rfl⟩]
  simp only [hmc]
  rw [Nat.add_comm 1 name2.length]

/-! ### Lemmas about the structural balance scan -/

theorem balScan_cons_plain (c : Char) (rest : List Char) (i : Nat) (stack : List Nat) :
    balScan (c :: rest) i .plain stack =
      (if c = '"' then balScan rest (i + 1) (.quoted i) stack
       else if c = '(' then balScan rest (i + 1) .plain (i :: stack)
       else if c = ')' then
         (match stack with
          | [] => .error (i, .MalformedFunctionCall)
          | _ :: stack2 => balScan rest (i + 1) .plain stack2)
       else balScan rest (i + 1) .plain stack) := rfl

theorem balScan_cons_quoted (c : Char) (rest : List Char) (i qpos : Nat)
    (stack : List Nat) :
    balScan (c :: rest) i (.quoted qpos) stack =
      (if c = '\\' then balScan rest (i + 1) (.escd qpos) stack
       else if c = '"' then balScan rest (i + 1) .plain stack
       else balScan rest (i + 1) (.quoted qpos) stack) := rfl

theorem balScan_cons_escd (c : Char) (rest : List Char) (i qpos : Nat)
    (stack : List Nat) :
    balScan (c :: rest) i (.escd qpos) stack =
      balScan rest (i + 1) (.quoted qpos) stack := rfl

theorem balScan_shift_len (c : Char) (a2 rest : List Char) (i : Nat)
    (stack : List Nat) :
    balScan rest (i + 1 + a2.length) .plain stack =
      balScan rest (i + (c :: a2).length) .plain stack := by
  have h : i + 1 + a2.length = i + (c :: a2).length := by
    simp only [List.length_cons]
    omega
  rw [h]

theorem neutralScan_cons (c : Char) (rest : List Char) (d : Nat) (inQ esc : Bool) :
    neutralScan (c :: rest) d inQ esc =
      (if esc then neutralScan rest d true false
       else if inQ then
         if c = '\\' then neutralScan rest d true true
         else if c = '"' then neutralScan rest d false false
         else neutralScan rest d true false
       else if c = '"' then neutralScan rest d true false
       else if c = '(' then neutralScan rest (d + 1) false false
       else if c = ')' then
         (match d with
          | 0 => false
          | d2 + 1 => neutralScan rest d2 false false)
       else neutralScan rest d false false) := rfl

theorem balScan_append_neutral (a : List Char) :
    ∀ (d : Nat) (inQ esc : Bool), neutralScan a d inQ esc = true →
    ∀ (rest : List Char) (i qpos : Nat) (own stack : List Nat), own.length = d →
      balScan (a ++ rest) i (modeOf inQ esc qpos) (own ++ stack) =
        balScan rest (i + a.length) .plain stack := by
  induction a with
  | nil =>
    intro d inQ esc h rest i qpos own stack hlen
    rw [neutralScan] at h
    simp at h
    obtain ⟨⟨hd, hq⟩, he⟩ := h
    subst hd
    subst hq
    subst he
    have hown : own = [] := List.length_eq_zero.mp hlen
    subst hown
    simp [modeOf]
  | cons c a2 ih =>
    intro d inQ esc h rest i qpos own stack hlen
    rw [neutralScan_cons] at h
    cases esc with
    | true =>
      rw [if_pos rfl] at h
      have hm : modeOf inQ true qpos = Mode.escd qpos := by simp [modeOf]
      rw [hm, List.cons_append, balScan_cons_escd]
      have hrec := ih d true false h rest (i + 1) qpos own stack hlen
      rw [show modeOf true false qpos = Mode.quoted qpos from by simp [modeOf]] at hrec
      rw [hrec]
      exact balScan_shift_len c a2 rest i stack
    | false =>
      rw [if_neg (by simp)] at h
      cases inQ with
      | true =>
        rw [if_pos rfl] at h
        have hm : modeOf true false qpos = Mode.quoted qpos := by simp [modeOf]
        rw [hm, List.cons_append, balScan_cons_quoted]
        by_cases hbs : c = '\\'
        · rw [if_pos hbs] at h ⊢
          have hrec := ih d true true h rest (i + 1) qpos own stack hlen
          rw [show modeOf true true qpos = Mode.escd qpos from by simp [modeOf]] at hrec
          rw [hrec]
          exact balScan_shift_len c a2 rest i stack
        · rw [if_neg hbs] at h ⊢
          by_cases hq : c = '"'
          · rw [if_pos hq] at h ⊢
            have hrec := ih d false false h rest (i + 1) qpos own stack hlen
            rw [show modeOf false false qpos = Mode.plain from by simp [modeOf]] at hrec
            rw [hrec]
            exact balScan_shift_len c a2 rest i stack
          · rw [if_neg hq] at h ⊢
            have hrec := ih d true false h rest (i + 1) qpos own stack hlen
            rw [show modeOf true false qpos = Mode.quoted qpos from by simp [modeOf]] at hrec
            rw [hrec]
            exact balScan_shift_len c a2 rest i stack
      | false =>
        rw [if_neg (by simp)] at h
        have hm : modeOf false false qpos = Mode.plain := by simp [modeOf]
        rw [hm, List.cons_append, balScan_cons_plain]
        by_cases hqc : c = '"'
        · rw [if_pos hqc] at h ⊢
          have hrec := ih d true false h rest (i + 1) i own stack hlen
          rw [show modeOf true false i = Mode.quoted i from by simp [modeOf]] at hrec
          rw [hrec]
          exact balScan_shift_len c a2 rest i stack
        · rw [if_neg hqc] at h ⊢
          by_cases hop : c = '('
          · rw [if_pos hop] at h ⊢
            have hrec := ih (d + 1) false false h rest (i + 1) qpos (i :: own) stack
              (by simp [hlen])
            rw [show modeOf false false qpos = Mode.plain from by simp [modeOf]] at hrec
            rw [show ((i :: own) ++ stack) = i :: (own ++ stack) from rfl] at hrec
            rw [hrec]
            exact balScan_shift_len c a2 rest i stack
          · rw [if_neg hop] at h ⊢
            by_cases hcl : c = ')'
            · rw [if_pos hcl] at h ⊢
              cases d with
              | zero => simp at h
              | succ d2 =>
                cases own with
                | nil => simp at hlen
                | cons o1 own2 =>
                  have hlen2 : own2.length = d2 := by simpa using hlen
                  have hrec := ih d2 false false h rest (i + 1) qpos own2 stack hlen2
                  rw [show modeOf false false qpos = Mode.plain from by simp [modeOf]] at hrec
                  show balScan (a2 ++ rest) (i + 1) Mode.plain (own2 ++ stack) =
                    balScan rest (i + (c :: a2).length) Mode.plain stack
                  rw [hrec]
                  exact balScan_shift_len c a2 rest i stack
            · rw [if_neg hcl] at h ⊢
              have hrec := ih d false false h rest (i + 1) qpos own stack hlen
              rw [show modeOf false false qpos = Mode.plain from by simp [modeOf]] at hrec
              rw [hrec]
              exact balScan_shift_len c a2 rest i stack

theorem balScan_never_closes (b : List Char) :
    ∀ (esc : Bool) (i qpos : Nat) (stack : List Nat), neverCloses b esc = true →
      balScan b i (if esc then Mode.escd qpos else Mode.quoted qpos) stack =
        .error (qpos, .UnterminatedQuote) := by
  induction b with
  | nil =>
    intro esc i qpos stack h
    cases esc
    · rfl
    · rfl
  | cons c b2 ih =>
    intro esc i qpos stack h
    rw [neverCloses] at h
    cases esc with
    | true =>
      rw [if_pos rfl] at h
      show balScan (c :: b2) i (Mode.escd qpos) stack = _
      rw [balScan_cons_escd]
      have hrec := ih false (i + 1) qpos stack h
      simpa using hrec
    | false =>
      rw [if_neg (by simp)] at h
      show balScan (c :: b2) i (Mode.quoted qpos) stack = _
      rw [balScan_cons_quoted]
      by_cases hbs : c = '\\'
      · rw [if_pos hbs] at h ⊢
        have hrec := ih true (i + 1) qpos stack h
        simpa using hrec
      · rw [if_neg hbs] at h ⊢
        by_cases hq : c = '"'
        · rw [if_pos hq] at h
          simp at h
        · rw [if_neg hq] at h ⊢
          have hrec := ih false (i + 1) qpos stack h
          simpa using hrec

theorem validate_unmatched_general (a b : List Char)
    (ha : scanOk a = true) (hb : scanOk b = true) :
    validate (a ++ '(' :: b) = .error (a.length, .MalformedFunctionCall) := by
  have h1 := balScan_append_neutral a 0 false false ha ('(' :: b) 0 0 [] [] rfl
  rw [show modeOf false false 0 = Mode.plain from by simp [modeOf]] at h1
  simp only [List.nil_append, Nat.zero_add] at h1
  have h2 : balScan ('(' :: b) a.length .plain [] =
      balScan b (a.length + 1) .plain [a.length] := by
    rw [balScan_cons_plain]
    simp
  have h3 := balScan_append_neutral b 0 false false hb [] (a.length + 1) 0 []
    [a.length] rfl
  rw [show modeOf false false 0 = Mode.plain from by simp [modeOf]] at h3
  simp only [List.nil_append, List.append_nil] at h3
  have h4 : balScan ([] : List Char) (a.length + 1 + b.length) .plain [a.length] =
      .error (a.length, .MalformedFunctionCall) := rfl
  rw [validate, h1, h2, h3, h4]

theorem validate_unterminated_general (a b : List Char)
    (ha : scanOk a = true) (hb : neverCloses b false = true) :
    validate (a ++ '"' :: b) = .error (a.length, .UnterminatedQuote) := by
  have h1 := balScan_append_neutral a 0 false false ha ('"' :: b) 0 0 [] [] rfl
  rw [show modeOf false false 0 = Mode.plain from by simp [modeOf]] at h1
  simp only [List.nil_append, Nat.zero_add] at h1
  have h2 : balScan ('"' :: b) a.length .plain [] =
      balScan b (a.length + 1) (Mode.quoted a.length) [] := by
    rw [balScan_cons_plain]
    simp
  have h3 : balScan b (a.length + 1) (Mode.quoted a.length) [] =
      .error (a.length, .UnterminatedQuote) := by
    have hrec := balScan_never_closes b false (a.length + 1) a.length [] hb
    simpa using hrec
  rw [validate, h1, h2, h3]

/-- Claim C7: an expression containing an unmatched opening parenthesis
fails validation with `MalformedFunctionCall` at the position of that
opening parenthesis — concretely for `avg(/host/item,5m` and `(x`, and in
general for every expression decomposing as a structurally neutral prefix,
the unmatched opening parenthesis and a structurally neutral tail; an
unterminated quote is likewise always rejected, at the position of its
opening quote; and a successful validation always consumes the entire
input, never a truncated prefix. -/
theorem validate_unmatched_paren :
    validate ['a', 'v', 'g', '(', '/', 'h', 'o', 's', 't', '/', 'i', 't', 'e',
        'm', ',', '5', 'm'] = .error (3, .MalformedFunctionCall) ∧
    validate ['(', 'x'] = .error (0, .MalformedFunctionCall) ∧
    validate ['a', 'v', 'g', '(', '/', 'h', 'o', 's', 't', '/', 'k', 'e', 'y',
        ',', '5', 'm', ')'] = .ok 17 ∧
    (∀ a b : List Char, scanOk a = true → scanOk b = true →
      validate (a ++ '(' :: b) = .error (a.length, .MalformedFunctionCall)) ∧
    (∀ a b : List Char, scanOk a = true → neverCloses b false = true →
      validate (a ++ '"' :: b) = .error (a.length, .UnterminatedQuote)) ∧
    (∀ (expr : List Char) (n : Nat), validate expr = .ok n → n = expr.length) := by
  refine ⟨rfl, rfl, rfl, validate_unmatched_general, validate_unterminated_general, ?_⟩
  intro expr n h
  rw [validate] at h
  cases hbal : balScan expr 0 .plain [] with
  | error e =>
    rw [hbal] at h
    exact Except.noConfusion h
  | ok u =>
    rw [hbal] at h
    cases hg : goValidate (expr.length + 1) expr 0 with
    | ok u2 =>
      rw [hg] at h
      exact (Except.ok.inj h).symm
    | error e =>
      rw [hg] at h
      exact Except.noConfusion h

/-- Claim C7 witness: the general unmatched-parenthesis arm of
`validate_unmatched_paren` evaluated at the concrete expression `avg(x`,
whose opening parenthesis sits at byte position 3. -/
theorem validate_unmatched_paren_witness :
    validate ['a', 'v', 'g', '(', 'x'] = .error (3, .MalformedFunctionCall) :=
  validate_unmatched_paren.2.2.2.1 ['a', 'v', 'g'] ['x'] (by decide) (by decide)

/-- Claim C9: validation is a pure function of the input bytes — two runs
on the same input yield identical results, and the result depends on
nothing but the input expression. -/
theorem validate_deterministic :
    ∀ expr : List Char,
      validate expr = validate expr ∧
      (∀ expr2 : List Char, expr2 = expr → validate expr2 = validate expr) :=
  fun _ => ⟨rfl, fun _ h => by rw [h]⟩

/-- Claim C9 witness: determinism evaluated at the empty expression. -/
theorem validate_deterministic_witness :
    validate [] = validate ([] : List Char) :=
  (validate_deterministic []).2 [] rfl

/-! ### Lemmas about the UTF-8 helpers -/

theorem sum_take_le (l : List Nat) : ∀ k, (l.take k).sum ≤ l.sum := by
  induction l with
  | nil => intro k; simp
  | cons a tl ih =>
    intro k
    cases k with
    | zero => simp
    | succ k2 =>
      simp only [List.take_succ_cons, List.sum_cons]
      exact Nat.add_le_add_left (ih k2) a

theorem utf8Lens_sum_le (N : Nat) : ∀ s : List Nat, s.length ≤ N →
    (utf8Lens s).sum ≤ s.length := by
  induction N with
  | zero =>
    intro s h
    have hnil : s = [] := List.length_eq_zero.mp (Nat.le_zero.mp h)
    subst hnil
    simp [utf8Lens]
  | succ N ih =>
    intro s h
    cases s with
    | nil => simp [utf8Lens]
    | cons b rest =>
      rw [utf8Lens.eq_def]
      cases hcl : charLen b with
      | none => simp [hcl]
      | some l =>
        simp only [hcl]
        by_cases hfit : l - 1 ≤ rest.length
        · rw [if_pos hfit]
          have hlen : (rest.drop (l - 1)).length ≤ N := by
            simp only [List.length_cons] at h
            simp only [List.length_drop]
            omega
          have hrec := ih (rest.drop (l - 1)) hlen
          simp only [List.length_drop] at hrec
          simp only [List.sum_cons, List.length_cons]
          omega
        · rw [if_neg hfit]
          simp

theorem boundedSubstring_eq (N : Nat) : ∀ (s : List Nat) (m : Nat), s.length ≤ N →
    boundedSubstring s m = ((utf8Lens s).take m).sum := by
  induction N with
  | zero =>
    intro s m h
    have hnil : s = [] := List.length_eq_zero.mp (Nat.le_zero.mp h)
    subst hnil
    simp [boundedSubstring, utf8Lens]
  | succ N ih =>
    intro s m h
    cases s with
    | nil => simp [boundedSubstring, utf8Lens]
    | cons b rest =>
      cases m with
      | zero => simp [boundedSubstring]
      | succ m2 =>
        rw [boundedSubstring, utf8Lens.eq_def]
        cases hcl : charLen b with
        | none => simp [hcl]
        | some l =>
          simp only [hcl]
          by_cases hfit : l - 1 ≤ rest.length
          · rw [if_pos hfit, if_pos hfit]
            have hlen : (rest.drop (l - 1)).length ≤ N := by
              simp only [List.length_cons] at h
              simp only [List.length_drop]
              omega
            rw [ih (rest.drop (l - 1)) m2 hlen]
            simp
          · rw [if_neg hfit, if_neg hfit]
            simp

/-- Claim C8: `boundedSubstring` returns the byte length of the first at
most `maxChars` complete code points of the buffer — a sum of whole
code-point lengths, so it never falls strictly inside a multi-byte UTF-8
sequence — and that length never exceeds the buffer length, and empty
input yields 0. -/
theorem boundedSubstring_spec (buf : List Nat) (maxChars : Nat) :
    boundedSubstring buf maxChars = ((utf8Lens buf).take maxChars).sum ∧
    boundedSubstring buf maxChars ≤ buf.length ∧
    boundedSubstring ([] : List Nat) maxChars = 0 := by
  have heq := boundedSubstring_eq buf.length buf maxChars (Nat.le_refl _)
  refine ⟨heq, ?_, ?_⟩
  · rw [heq]
    exact le_trans (sum_take_le _ _) (utf8Lens_sum_le buf.length buf (Nat.le_refl _))
  · have h0 := boundedSubstring_eq 0 [] maxChars (by simp)
    simpa [utf8Lens] using h0

end ZbxSpec
